import Mathlib

/-!
Shallow embedding of the `bnf` crate's `Expression` module
(`src/expression.rs`) together with the parts of the crate it relies on
(`term`, `error`, `parsers`), and proofs of the specified properties.
-/

/-- Modelled from the spec: the crate's `Term` type (module `term`, not
present under src/) — either a Terminal wrapping a literal string or a
Nonterminal wrapping a rule name. -/
inductive Term where
  | Terminal (s : String)
  | Nonterminal (s : String)
deriving DecidableEq, Repr

/-- Modelled from the spec: canonical rendering of a `Term` — a Terminal is
printed quoted, a Nonterminal is printed angle-bracketed. -/
def Term.toString : Term → String
  | .Terminal s => "\"" ++ s ++ "\""
  | .Nonterminal s => "<" ++ s ++ ">"

/-- Modelled from the spec: the crate's `Error` type (module `error`, not
present under src/) — a tagged variant distinguishing the Malformed kind
(`ParseError`) from the Incomplete kind (`ParseIncomplete`), each carrying
positional/context information (modelled as a string). -/
inductive Error where
  | ParseError (context : String)
  | ParseIncomplete (context : String)
deriving DecidableEq, Repr

/-- `Expression` from `src/expression.rs`: an ordered sequence of `Term`s. -/
structure Expression where
  terms : List Term
deriving DecidableEq, Repr

/-- `Expression::new`. -/
def Expression.new : Expression := ⟨[]⟩

/-- `Expression::from_parts`. -/
def Expression.from_parts (v : List Term) : Expression := ⟨v⟩

/-- `Expression::add_term`: pushes the term onto the end. -/
def Expression.add_term (e : Expression) (t : Term) : Expression :=
  ⟨e.terms ++ [t]⟩

/-- Helper embedding `position(|x| x == term)` followed by `Vec::remove`:
removes the first structurally-equal element, returning it together with
the remaining list. -/
def removeFirst (t : Term) : List Term → Option Term × List Term
  | [] => (none, [])
  | x :: xs =>
    if x = t then (some x, xs)
    else
      let r := removeFirst t xs
      (r.1, x :: r.2)

/-- `Expression::remove_term`: state-passing embedding returning the
`Option<Term>` result and the updated expression. -/
def Expression.remove_term (e : Expression) (t : Term) : Option Term × Expression :=
  let r := removeFirst t e.terms
  (r.1, ⟨r.2⟩)

/-- `Expression::terms_iter`: the terms in iteration (insertion) order. -/
def Expression.terms_iter (e : Expression) : List Term := e.terms

/-- `impl fmt::Display for Expression`: maps each term to its canonical
string and joins with a single space (`.join(" ")`). -/
def Expression.toString (e : Expression) : String :=
  String.intercalate " " (e.terms.map Term.toString)

/-- Modelled from the spec: whitespace separating terms is space or tab. -/
def isWs (c : Char) : Bool := c == ' ' || c == '\t'

/-- Split a character list at the first occurrence of `c`: returns the
characters before it and the characters after it, or `none` when `c` does
not occur. Embeds the parser's scan to a closing delimiter. -/
def splitAtChar (c : Char) : List Char → Option (List Char × List Char)
  | [] => none
  | x :: xs =>
    if x = c then some ([], xs)
    else
      match splitAtChar c xs with
      | some (l, r) => some (x :: l, r)
      | none => none

/-- Modelled from the spec: Term-level parsing. A bracketed identifier is a
Nonterminal, a quoted string a Terminal; empty input is Incomplete; an
unterminated bracket or quote, or an unrecognized leading character, is
Malformed. -/
def parseTerm : List Char → Except Error (Term × List Char)
  | [] => .error (.ParseIncomplete "end of input where a term was expected")
  | '<' :: rest =>
    match splitAtChar '>' rest with
    | some (name, rest') => .ok (.Nonterminal (String.mk name), rest')
    | none => .error (.ParseError "unterminated angle bracket")
  | '"' :: rest =>
    match splitAtChar '"' rest with
    | some (lit, rest') => .ok (.Terminal (String.mk lit), rest')
    | none => .error (.ParseError "unterminated quote")
  | _ :: _ => .error (.ParseError "unrecognized leading character")

/-- Whether the input's next character can begin a `Term`. -/
def startsTerm : List Char → Bool
  | '<' :: _ => true
  | '"' :: _ => true
  | _ => false

/-- Modelled from the spec: after the first Term an Expression continues
with further Terms separated by required whitespace, and parsing stops at
the first character that cannot begin a Term and is not whitespace. The
fuel argument bounds the recursion; each step consumes input. -/
def exprLoop : Nat → List Term → List Char → Except Error (List Term × List Char)
  | 0, _, _ => .error (.ParseError "recursion bound exhausted")
  | fuel + 1, acc, input =>
    if (input.takeWhile isWs).isEmpty then
      .ok (acc, input)
    else
      let rest := input.dropWhile isWs
      if startsTerm rest then
        match parseTerm rest with
        | .ok (t, rest') => exprLoop fuel (acc ++ [t]) rest'
        | .error e => .error e
      else
        .ok (acc, input)

namespace parsers

/-- Modelled from the spec: Expression-level parsing — one or more Terms
separated by required whitespace, returning the parsed value and the
remaining input. -/
def expression (input : List Char) : Except Error (Expression × List Char) :=
  match parseTerm input with
  | .ok (t, rest) =>
    match exprLoop (input.length + 1) [t] rest with
    | .ok (ts, rest') => .ok (Expression.from_parts ts, rest')
    | .error e => .error e
  | .error e => .error e

/-- Modelled from the spec: the fully-consuming entry point
`parsers::expression_complete` — succeeds only when the leftover input is
merely trailing whitespace, otherwise fails as Malformed. -/
def expression_complete (input : List Char) : Except Error (List Char × Expression) :=
  match expression input with
  | .ok (e, rest) =>
    if rest.all isWs then .ok (rest, e)
    else .error (.ParseError "unconsumed trailing input after expression")
  | .error err => .error err

end parsers

/-- `Expression::from_str` (the inherent method, `src/expression.rs:26-31`):
runs `parsers::expression_complete` on the input's bytes, discarding the
(whitespace-only) leftover on success. The crate's `Error::from` conversion
is the identity here since the modelled parser already produces `Error`. -/
def Expression.from_str (s : String) : Except Error Expression :=
  match parsers.expression_complete s.data with
  | .ok (_, o) => .ok o
  | .error e => .error e

/-- `impl FromStr for Expression` (`src/expression.rs:97-103`): delegates to
the inherent `Expression::from_str`. -/
def Expression.fromStrImpl (s : String) : Except Error Expression :=
  Expression.from_str s

/-- A parse result that failed with the Malformed kind. -/
def isMalformedResult : Except Error Expression → Bool
  | .error (.ParseError _) => true
  | _ => false

/-- A parse result that failed with the Incomplete kind. -/
def isIncompleteResult : Except Error Expression → Bool
  | .error (.ParseIncomplete _) => true
  | _ => false

/-- A term whose wrapped string is free of its own closing delimiter, so
that its canonical rendering can be re-read unambiguously. -/
def Term.delimFree : Term → Bool
  | .Terminal s => !(s.data.contains '"')
  | .Nonterminal s => !(s.data.contains '>')

instance {α : Type} [DecidableEq α] : DecidableEq (Except Error α) := fun a b =>
  match a, b with
  | .ok x, .ok y => if h : x = y then .isTrue (by rw [h]) else .isFalse (by simp [h])
  | .error x, .error y => if h : x = y then .isTrue (by rw [h]) else .isFalse (by simp [h])
  | .ok _, .error _ => .isFalse (by simp)
  | .error _, .ok _ => .isFalse (by simp)

/-- Joining a list of strings with a single separating space, written out
recursively (the spec's description of canonical Expression rendering). -/
def joinSpace : List String → String
  | [] => ""
  | [s] => s
  | s :: rest => s ++ " " ++ joinSpace rest

/-- The strings of a list each preceded by a single space, concatenated. -/
def joinTail : List String → String
  | [] => ""
  | s :: rest => " " ++ s ++ joinTail rest

/-- The character-level rendering of a tail of terms, each term preceded by
the single separating space. -/
def renderSep : List Term → List Char
  | [] => []
  | t :: ts => ' ' :: (Term.toString t).data ++ renderSep ts

/-! ## Lemmas about string joining -/

lemma intercalate_go_eq (l : List String) (acc : String) :
    String.intercalate.go acc " " l = acc ++ joinTail l := by
  induction l generalizing acc with
  | nil => simp [String.intercalate.go, joinTail]
  | cons a as ih =>
    rw [String.intercalate.go, ih, joinTail]
    simp [String.append_assoc]

lemma joinSpace_eq_joinTail (l : List String) :
    ∀ a : String, joinSpace (a :: l) = a ++ joinTail l := by
  induction l with
  | nil => intro a; simp [joinSpace, joinTail]
  | cons b bs ih =>
    intro a
    have h1 : joinSpace (a :: b :: bs) = a ++ " " ++ joinSpace (b :: bs) := rfl
    rw [h1, ih b, joinTail]
    simp [String.append_assoc]

lemma intercalate_space_eq_joinSpace (l : List String) :
    String.intercalate " " l = joinSpace l := by
  cases l with
  | nil => rfl
  | cons a as =>
    rw [String.intercalate, intercalate_go_eq, joinSpace_eq_joinTail]

/-! ## Lemmas about `removeFirst` -/

lemma removeFirst_not_mem (t : Term) (l : List Term) (h : t ∉ l) :
    removeFirst t l = (none, l) := by
  induction l with
  | nil => rfl
  | cons x xs ih =>
    have hx : ¬ x = t := fun hxt => h (hxt ▸ List.mem_cons_self x xs)
    have hxs : t ∉ xs := fun hm => h (List.mem_cons_of_mem x hm)
    simp [removeFirst, hx, ih hxs]

lemma removeFirst_split (t : Term) (pre post : List Term) (h : t ∉ pre) :
    removeFirst t (pre ++ t :: post) = (some t, pre ++ post) := by
  induction pre with
  | nil => simp [removeFirst]
  | cons x xs ih =>
    have hx : ¬ x = t := fun hxt => h (hxt ▸ List.mem_cons_self x xs)
    have hxs : t ∉ xs := fun hm => h (List.mem_cons_of_mem x hm)
    simp [removeFirst, hx, ih hxs]

lemma removeFirst_mem (t : Term) (l : List Term) (h : t ∈ l) :
    (removeFirst t l).1 = some t ∧ (removeFirst t l).2.length + 1 = l.length := by
  induction l with
  | nil => cases h
  | cons x xs ih =>
    by_cases hx : x = t
    · subst hx
      simp [removeFirst]
    · have hxs : t ∈ xs := by
        cases h with
        | head => exact absurd rfl hx
        | tail _ hm => exact hm
      have := ih hxs
      simp [removeFirst, hx, this.1, Nat.succ_inj]
      omega

/-! ## Lemmas about the parser on rendered input -/

lemma splitAtChar_append (c : Char) (l r : List Char) (h : c ∉ l) :
    splitAtChar c (l ++ c :: r) = some (l, r) := by
  induction l with
  | nil => simp [splitAtChar]
  | cons x xs ih =>
    have hx : ¬ x = c := fun hxc => h (hxc ▸ List.mem_cons_self x xs)
    have hxs : c ∉ xs := fun hm => h (List.mem_cons_of_mem x hm)
    simp [splitAtChar, hx, ih hxs]

lemma parseTerm_render (t : Term) (rest : List Char) (h : Term.delimFree t = true) :
    parseTerm ((Term.toString t).data ++ rest) = .ok (t, rest) := by
  cases t with
  | Terminal s =>
    have hmem : '"' ∉ s.data := by
      simpa [Term.delimFree] using h
    have hdata : (Term.toString (Term.Terminal s)).data ++ rest
        = '"' :: (s.data ++ '"' :: rest) := by
      show (('"' :: s.data) ++ ['"']) ++ rest = _
      simp
    rw [hdata, parseTerm, splitAtChar_append '"' s.data rest hmem]
  | Nonterminal s =>
    have hmem : '>' ∉ s.data := by
      simpa [Term.delimFree] using h
    have hdata : (Term.toString (Term.Nonterminal s)).data ++ rest
        = '<' :: (s.data ++ '>' :: rest) := by
      show (('<' :: s.data) ++ ['>']) ++ rest = _
      simp
    rw [hdata, parseTerm, splitAtChar_append '>' s.data rest hmem]

lemma renderTermData_head (t : Term) :
    ∃ c cs, (Term.toString t).data = c :: cs ∧ isWs c = false ∧ (c = '<' ∨ c = '"') := by
  cases t with
  | Terminal s => exact ⟨'"', s.data ++ ['"'], rfl, rfl, Or.inr rfl⟩
  | Nonterminal s => exact ⟨'<', s.data ++ ['>'], rfl, rfl, Or.inl rfl⟩

lemma exprLoop_renderSep (ts : List Term) (h : ts.all Term.delimFree = true) :
    ∀ fuel acc, ts.length < fuel →
      exprLoop fuel acc (renderSep ts) = .ok (acc ++ ts, []) := by
  induction ts with
  | nil =>
    intro fuel acc hf
    match fuel with
    | fuel + 1 => simp [exprLoop, renderSep]
  | cons t ts ih =>
    intro fuel acc hf
    rw [List.all_cons, Bool.and_eq_true] at h
    have hd : Term.delimFree t = true := h.1
    have htl : ts.all Term.delimFree = true := h.2
    match fuel, hf with
    | fuel + 1, hf =>
      obtain ⟨c, cs, hcs, hws, hstart⟩ := renderTermData_head t
      have hrs : renderSep (t :: ts) = ' ' :: (c :: cs) ++ renderSep ts := by
        rw [renderSep, hcs]
      have htake : (((' ' :: (c :: cs)) ++ renderSep ts).takeWhile isWs).isEmpty = false := by
        simp [List.takeWhile_cons, isWs]
      have hdrop : ((' ' :: (c :: cs)) ++ renderSep ts).dropWhile isWs
          = c :: (cs ++ renderSep ts) := by
        rw [List.cons_append, List.dropWhile_cons]
        have h1 : isWs ' ' = true := rfl
        rw [if_pos h1, List.cons_append, List.dropWhile_cons, hws]
        simp
      have hst : startsTerm (c :: (cs ++ renderSep ts)) = true := by
        rcases hstart with h1 | h1 <;> rw [h1] <;> rfl
      have hpt : parseTerm (c :: (cs ++ renderSep ts)) = .ok (t, renderSep ts) := by
        have : c :: (cs ++ renderSep ts) = (Term.toString t).data ++ renderSep ts := by
          rw [hcs]
          simp
        rw [this]
        exact parseTerm_render t (renderSep ts) hd
      rw [hrs, exprLoop]
      simp only [List.cons_append] at htake hdrop ⊢
      rw [htake]
      simp only [Bool.false_eq_true, if_false, hdrop, hst, if_true, hpt]
      have hlen : ts.length < fuel := by
        have : (t :: ts).length = ts.length + 1 := rfl
        omega
      rw [ih htl fuel (acc ++ [t]) hlen]
      simp

lemma joinTail_data (ts : List Term) :
    (joinTail (ts.map Term.toString)).data = renderSep ts := by
  induction ts with
  | nil => rfl
  | cons t ts ih =>
    show (" " ++ Term.toString t ++ joinTail (ts.map Term.toString)).data = _
    rw [String.data_append, String.data_append, renderSep, ← ih]
    rfl

lemma toString_data (t : Term) (ts : List Term) :
    (Expression.toString ⟨t :: ts⟩).data = (Term.toString t).data ++ renderSep ts := by
  rw [Expression.toString, intercalate_space_eq_joinSpace]
  show (joinSpace (Term.toString t :: ts.map Term.toString)).data = _
  rw [joinSpace_eq_joinTail, String.data_append, joinTail_data]

lemma renderSep_length (ts : List Term) : ts.length ≤ (renderSep ts).length := by
  induction ts with
  | nil => simp [renderSep]
  | cons t ts ih =>
    rw [renderSep]
    simp only [List.length_cons, List.length_append]
    omega

lemma expression_render (e : Expression) (h1 : e.terms ≠ [])
    (h2 : e.terms.all Term.delimFree = true) :
    parsers.expression (Expression.toString e).data = .ok (e, []) := by
  obtain ⟨t, ts, hts⟩ := List.exists_cons_of_ne_nil h1
  obtain ⟨terms⟩ := e
  simp only at hts
  subst hts
  rw [List.all_cons, Bool.and_eq_true] at h2
  rw [parsers.expression, toString_data, parseTerm_render t (renderSep ts) h2.1]
  have hfuel : ts.length < ((Term.toString t).data ++ renderSep ts).length + 1 := by
    have := renderSep_length ts
    simp only [List.length_append]
    omega
  dsimp only
  rw [exprLoop_renderSep ts h2.2
    (((Term.toString t).data ++ renderSep ts).length + 1) [t] hfuel]
  rfl

/-! ## The claims -/

/-- Claim C1 fails as stated: the Expression holding the single Terminal
whose literal is one double-quote character has at least one term, yet
rendering it and re-parsing does not yield the original Expression (the
canonical rendering is three quote characters, which re-parse as an empty
Terminal followed by unconsumed trailing input). -/
theorem roundtrip_counterexample :
    (Expression.from_parts [Term.Terminal "\""]).terms ≠ []
    ∧ Expression.from_str (Expression.toString (Expression.from_parts [Term.Terminal "\""]))
      ≠ .ok (Expression.from_parts [Term.Terminal "\""]) := by
  constructor
  · decide
  · decide

/-- Claim C1 (amended): for every Expression with at least one Term whose
wrapped strings are free of their own closing delimiter (no closing angle
bracket inside a Nonterminal name, no double quote inside a Terminal
literal), rendering to the canonical string and re-parsing with
`Expression::from_str` succeeds and yields a structurally-equal Expression,
terms in the same iteration order. -/
theorem roundtrip_amended (e : Expression) (h1 : e.terms ≠ [])
    (h2 : e.terms.all Term.delimFree = true) :
    Expression.from_str (Expression.toString e) = .ok e := by
  rw [Expression.from_str, parsers.expression_complete, expression_render e h1 h2]
  rfl

/-- Witness for the amended Claim C1 at a concrete two-term Expression. -/
theorem roundtrip_amended_witness :
    Expression.from_str (Expression.toString (Expression.from_parts
      [Term.Nonterminal "base", Term.Terminal "x"]))
      = .ok (Expression.from_parts [Term.Nonterminal "base", Term.Terminal "x"]) :=
  roundtrip_amended (Expression.from_parts [Term.Nonterminal "base", Term.Terminal "x"])
    (by decide) (by decide)

/-- Claim C2: `Expression::from_str` on the empty string fails, and the
failure is classified Incomplete, not Malformed. -/
theorem from_str_empty_incomplete :
    isIncompleteResult (Expression.from_str "") = true
    ∧ isMalformedResult (Expression.from_str "") = false := by
  decide

/-- Claim C3: `Expression::from_str` on the input with an unterminated angle
bracket fails, and the failure is classified Malformed, not Incomplete. -/
theorem from_str_unterminated_malformed :
    isMalformedResult (Expression.from_str "<base> <dna") = true
    ∧ isIncompleteResult (Expression.from_str "<base> <dna") = false := by
  decide

/-- Claim C4: whenever Expression-level parsing succeeds but leaves
unconsumed trailing input that is not only whitespace, the fully-consuming
entry point `Expression::from_str` fails with the Malformed kind, not the
Incomplete kind. -/
theorem trailing_input_malformed (s : String) (e : Expression) (rest : List Char)
    (h : parsers.expression s.data = .ok (e, rest))
    (hrest : rest.all isWs = false) :
    isMalformedResult (Expression.from_str s) = true
    ∧ isIncompleteResult (Expression.from_str s) = false := by
  rw [Expression.from_str, parsers.expression_complete, h]
  dsimp only
  rw [hrest]
  exact ⟨rfl, rfl⟩

/-- Witness for Claim C4 at a concrete input with trailing garbage. -/
theorem trailing_input_malformed_witness :
    isMalformedResult (Expression.from_str "<a> x") = true
    ∧ isIncompleteResult (Expression.from_str "<a> x") = false :=
  trailing_input_malformed "<a> x" (Expression.from_parts [Term.Nonterminal "a"])
    [' ', 'x'] (by decide) (by decide)

/-- Claim C5: removing an absent term returns `none` and keeps the number of
terms unchanged; removing a present term removes the first structurally-equal
term (whenever the terms split as pre ++ t :: post with t absent from pre,
the remaining terms are exactly pre ++ post), returns `some` of the removed
value (equal to the argument), and decreases the number of terms by exactly
one. -/
theorem remove_term_semantics (e : Expression) (t : Term) :
    (t ∉ e.terms → (e.remove_term t).1 = none
      ∧ ((e.remove_term t).2.terms_iter).length = (e.terms_iter).length)
    ∧ (t ∈ e.terms → (e.remove_term t).1 = some t
      ∧ ((e.remove_term t).2.terms_iter).length + 1 = (e.terms_iter).length
      ∧ ∀ pre post, e.terms = pre ++ t :: post → t ∉ pre →
          (e.remove_term t).2.terms_iter = pre ++ post) := by
  constructor
  · intro h
    have hr : removeFirst t e.terms = (none, e.terms) := removeFirst_not_mem t e.terms h
    constructor
    · show (removeFirst t e.terms).1 = none
      rw [hr]
    · show ((removeFirst t e.terms).2).length = e.terms.length
      rw [hr]
  · intro h
    have hr := removeFirst_mem t e.terms h
    refine ⟨hr.1, hr.2, ?_⟩
    intro pre post hsplit hpre
    show (removeFirst t e.terms).2 = pre ++ post
    rw [hsplit, removeFirst_split t pre post hpre]

/-- Witness for Claim C5: both branches at concrete expressions — removing
an absent terminal, and removing a terminal that occurs twice, checking that
exactly the first occurrence disappears. -/
theorem remove_term_semantics_witness :
    (((Expression.from_parts [Term.Terminal "A", Term.Terminal "C"]).remove_term
        (Term.Terminal "Z")).1 = none
      ∧ ((((Expression.from_parts [Term.Terminal "A", Term.Terminal "C"]).remove_term
        (Term.Terminal "Z")).2.terms_iter).length
        = ((Expression.from_parts [Term.Terminal "A", Term.Terminal "C"]).terms_iter).length))
    ∧ (((Expression.from_parts [Term.Terminal "Z", Term.Terminal "A",
          Term.Terminal "Z"]).remove_term (Term.Terminal "Z")).1 = some (Term.Terminal "Z")
      ∧ ((((Expression.from_parts [Term.Terminal "Z", Term.Terminal "A",
          Term.Terminal "Z"]).remove_term (Term.Terminal "Z")).2.terms_iter).length + 1
        = ((Expression.from_parts [Term.Terminal "Z", Term.Terminal "A",
          Term.Terminal "Z"]).terms_iter).length)
      ∧ ((Expression.from_parts [Term.Terminal "Z", Term.Terminal "A",
          Term.Terminal "Z"]).remove_term (Term.Terminal "Z")).2.terms_iter
        = [] ++ [Term.Terminal "A", Term.Terminal "Z"]) :=
  ⟨(remove_term_semantics (Expression.from_parts [Term.Terminal "A", Term.Terminal "C"])
      (Term.Terminal "Z")).1 (by decide),
   ⟨((remove_term_semantics (Expression.from_parts [Term.Terminal "Z", Term.Terminal "A",
        Term.Terminal "Z"]) (Term.Terminal "Z")).2 (by decide)).1,
    ((remove_term_semantics (Expression.from_parts [Term.Terminal "Z", Term.Terminal "A",
        Term.Terminal "Z"]) (Term.Terminal "Z")).2 (by decide)).2.1,
    ((remove_term_semantics (Expression.from_parts [Term.Terminal "Z", Term.Terminal "A",
        Term.Terminal "Z"]) (Term.Terminal "Z")).2 (by decide)).2.2
      [] [Term.Terminal "A", Term.Terminal "Z"] (by decide) (by decide)⟩⟩

/-- Claim C6: the canonical rendering of an Expression is its terms'
canonical renderings, in iteration order, joined by a single space; an
Expression with zero terms renders as the empty string. -/
theorem display_joins_with_space (e : Expression) :
    Expression.toString e = joinSpace ((e.terms_iter).map Term.toString)
    ∧ Expression.toString (Expression.from_parts []) = "" := by
  constructor
  · rw [Expression.toString, intercalate_space_eq_joinSpace]
    rfl
  · rfl

/-- Claim C7: parsing the two-nonterminal input succeeds, yields exactly the
Nonterminals named base and dna in that order, and rendering that
Expression yields the input back. -/
theorem parse_base_dna :
    Expression.from_str "<base> <dna>"
      = .ok (Expression.from_parts [Term.Nonterminal "base", Term.Nonterminal "dna"])
    ∧ Expression.toString (Expression.from_parts
        [Term.Nonterminal "base", Term.Nonterminal "dna"]) = "<base> <dna>" := by
  constructor
  · decide
  · decide

/-- Claim C8: for every term sequence, `Expression::from_parts` equals
starting from `Expression::new` and appending each term in order with
`add_term`; in particular for a nonterminal followed by a terminal. -/
theorem from_parts_eq_fold_add_term (l : List Term) :
    Expression.from_parts l = l.foldl Expression.add_term Expression.new
    ∧ Expression.from_parts [Term.Nonterminal "nonterminal", Term.Terminal "terminal"]
      = [Term.Nonterminal "nonterminal", Term.Terminal "terminal"].foldl
          Expression.add_term Expression.new := by
  have key : ∀ (l acc : List Term),
      l.foldl Expression.add_term ⟨acc⟩ = ⟨acc ++ l⟩ := by
    intro l
    induction l with
    | nil => intro acc; simp
    | cons x xs ih =>
      intro acc
      rw [List.foldl_cons]
      show List.foldl Expression.add_term ⟨acc ++ [x]⟩ xs = _
      rw [ih (acc ++ [x])]
      simp
  constructor
  · show Expression.from_parts l = l.foldl Expression.add_term ⟨[]⟩
    rw [key l []]
    rfl
  · decide

/-- Claim C9: removing a present term removes exactly the first occurrence:
when the terms split as pre ++ t :: post with t absent from pre, the
remaining terms are pre ++ post (all other terms unchanged, relative order
preserved) and the occurrence count of t decreases by exactly one. -/
theorem remove_term_first_occurrence (e : Expression) (t : Term)
    (pre post : List Term) (hsplit : e.terms = pre ++ t :: post) (hpre : t ∉ pre) :
    (e.remove_term t).1 = some t
    ∧ (e.remove_term t).2.terms = pre ++ post
    ∧ ((e.remove_term t).2.terms).count t + 1 = (e.terms).count t := by
  have hr : removeFirst t e.terms = (some t, pre ++ post) := by
    rw [hsplit]
    exact removeFirst_split t pre post hpre
  refine ⟨?_, ?_, ?_⟩
  · show (removeFirst t e.terms).1 = some t
    rw [hr]
  · show (removeFirst t e.terms).2 = pre ++ post
    rw [hr]
  · show ((removeFirst t e.terms).2).count t + 1 = (e.terms).count t
    rw [hr, hsplit]
    simp [List.count_append, List.count_cons_self]
    omega

/-- Witness for Claim C9 at a concrete expression containing the removed
terminal twice. -/
theorem remove_term_first_occurrence_witness :
    ((Expression.from_parts [Term.Terminal "A", Term.Terminal "Z", Term.Terminal "B",
        Term.Terminal "Z"]).remove_term (Term.Terminal "Z")).1 = some (Term.Terminal "Z")
    ∧ ((Expression.from_parts [Term.Terminal "A", Term.Terminal "Z", Term.Terminal "B",
        Term.Terminal "Z"]).remove_term (Term.Terminal "Z")).2.terms
      = [Term.Terminal "A"] ++ [Term.Terminal "B", Term.Terminal "Z"]
    ∧ (((Expression.from_parts [Term.Terminal "A", Term.Terminal "Z", Term.Terminal "B",
        Term.Terminal "Z"]).remove_term (Term.Terminal "Z")).2.terms).count (Term.Terminal "Z")
        + 1
      = ((Expression.from_parts [Term.Terminal "A", Term.Terminal "Z", Term.Terminal "B",
        Term.Terminal "Z"]).terms).count (Term.Terminal "Z") :=
  remove_term_first_occurrence
    (Expression.from_parts [Term.Terminal "A", Term.Terminal "Z", Term.Terminal "B",
      Term.Terminal "Z"])
    (Term.Terminal "Z") [Term.Terminal "A"] [Term.Terminal "B", Term.Terminal "Z"]
    (by decide) (by decide)

/-- Claim C10: the `FromStr` trait implementation returns exactly the same
result as the inherent `Expression::from_str` on every input string. -/
theorem fromStrImpl_eq_from_str (s : String) :
    Expression.fromStrImpl s = Expression.from_str s := rfl
